import Mathlib

/-!
Persisted batching queue: the ingestion-side appender, and the logging options.

A shallow embedding of `internal/component/prometheus/remotewrite/batch/appender.go`
together with the parts of Go's `time` package that `appender.Append` calls
(`Time.Unix`, `Duration.Seconds`, the `float64` arithmetic inside `Seconds` and the
`int64(float64)` conversion), in namespace `Batch`; and of
`internal/alloy/logging/options.go`, in namespace `Logging`.

Conventions.
* Go `int64` values are `Int`; where the source does `int64` arithmetic the result is
  reduced with `wrapInt64`.
* A pointer is an address (`Ptr`); the objects a pointer designates live in the program
  state (`Mem`), so that "the binding" (the address) and "the content" (the object stored
  there) are distinct.
* A Go `error` is `Option Error`, `none` being `nil`.
* Label sets and sample values are never inspected by the appender; they are the type
  parameters `L` and `V`.
-/

namespace Batch

/-! ## Machine integers -/

/-- Two's-complement reduction of an integer to the `int64` range. -/
def wrapInt64 (x : Int) : Int :=
  (x + 9223372036854775808) % 18446744073709551616 - 9223372036854775808

/-! ## `float64` arithmetic used by `time.Duration.Seconds`

A finite `float64` is kept as the exact dyadic number `m * 2 ^ e`.  Every operation
computes the exact result and rounds it to 53 significant bits, to nearest, ties to even
(the IEEE 754 default used by Go).  Infinities, NaN, signed zero and subnormals do not
arise for the magnitudes handled here (between `1e-9` and `2 ^ 63`) and are not
represented. -/

/-- Finite `float64` value `m * 2 ^ e`. -/
structure F64 where
  m : Int
  e : Int
  deriving DecidableEq, Repr

/-- Position of the highest set bit: `bitLog n = ⌊log₂ n⌋` for `0 < n` (and `0` at `0`).
The first argument bounds the recursion; `bitLog n n` is always enough. -/
def bitLogAux : Nat → Nat → Nat
  | 0, _ => 0
  | fuel + 1, n => if n < 2 then 0 else bitLogAux fuel (n / 2) + 1

/-- Floor of the binary logarithm. -/
def bitLog (n : Nat) : Nat := bitLogAux n n

/-- Floor of the binary logarithm of the ratio `a / d`, for `0 < a` and `0 < d`: the
difference of the two bit positions, or one less. -/
def ratioLog (a d : Nat) : Int :=
  let k0 : Int := (bitLog a : Int) - (bitLog d : Int)
  if d * 2 ^ k0.toNat ≤ a * 2 ^ (-k0).toNat then k0 else k0 - 1

/-- Quotient `num / den` rounded to the nearest integer, ties to even, for `0 < den`. -/
def divRoundEven (num den : Nat) : Nat :=
  let q := num / den
  let r := num % den
  if den < 2 * r ∨ (2 * r = den ∧ q % 2 = 1) then q + 1 else q

/-- The `float64` nearest to the rational `n / d` (ties to even), for `0 < d`.  The
exponent `e` is chosen so that `2 ^ 52 ≤ |n| / (d * 2 ^ e) < 2 ^ 53`, which leaves 53
significant bits after rounding. -/
def roundRatio (n : Int) (d : Nat) : F64 :=
  if n = 0 ∨ d = 0 then ⟨0, 0⟩
  else
    let e : Int := ratioLog n.natAbs d - 52
    ⟨n.sign * (divRoundEven (n.natAbs * 2 ^ (-e).toNat) (d * 2 ^ e.toNat) : Int), e⟩

/-- Conversion `float64(n)` of an integer. -/
def F64.ofInt (n : Int) : F64 := roundRatio n 1

/-- Rounded sum `x + y`. -/
def F64.add (x y : F64) : F64 :=
  let e := min x.e y.e
  let s : Int := x.m * 2 ^ (x.e - e).toNat + y.m * 2 ^ (y.e - e).toNat
  roundRatio (s * 2 ^ e.toNat) (2 ^ (-e).toNat)

/-- Rounded quotient `x / y`, for `y ≠ 0`. -/
def F64.div (x y : F64) : F64 :=
  roundRatio (x.m * y.m.sign * 2 ^ (x.e - y.e).toNat) (y.m.natAbs * 2 ^ (y.e - x.e).toNat)

/-- Conversion `int64(x)`: the fractional part is discarded (truncation towards zero).
The value is in the `int64` range for every `x` that `Duration.Seconds` returns. -/
def F64.toInt64 (x : F64) : Int :=
  Int.tdiv (x.m * 2 ^ x.e.toNat) (2 ^ (-x.e).toNat)

/-! ### Values, for reasoning about the arithmetic -/

/-- Exact value `m * 2 ^ e` of a float, as a rational. -/
def F64.val (x : F64) : ℚ := (x.m : ℚ) * (2 : ℚ) ^ x.e

/-- A rational rounded to the nearest integer, ties to even. -/
def rne (y : ℚ) : Int :=
  if 1 / 2 < Int.fract y ∨ (Int.fract y = 1 / 2 ∧ ⌊y⌋ % 2 = 1) then ⌊y⌋ + 1 else ⌊y⌋

/-! ## `time.Duration` and `time.Time` -/

/-- Go `time.Duration`: a signed count of nanoseconds (`int64`). -/
abbrev Duration := Int

/-- Go `time.Second`. -/
def Second : Duration := 1000000000

/-- Go `time.Minute`. -/
def Minute : Duration := 60 * Second

/-- Go `Duration.Seconds`:
`sec := d / Second; nsec := d % Second; return float64(sec) + float64(nsec)/1e9`.
Go's `/` and `%` on integers truncate towards zero. -/
def Duration.Seconds (d : Duration) : F64 :=
  let sec := Int.tdiv d Second
  let nsec := Int.tmod d Second
  F64.add (F64.ofInt sec) (F64.div (F64.ofInt nsec) (F64.ofInt 1000000000))

/-- A clock reading `time.Time`: whole seconds since the Unix epoch (an `int64`) and the
nanoseconds within that second. -/
structure Time where
  sec : Int
  nsec : Nat
  sec_ge : -9223372036854775808 ≤ sec
  sec_lt : sec < 9223372036854775808
  nsec_lt : nsec < 1000000000

/-- Go `Time.Unix`: seconds since the epoch. -/
def Time.Unix (t : Time) : Int := t.sec

/-- Go `Time.UnixMilli`: milliseconds since the epoch,
`t.unixSec()*1e3 + int64(t.nsec())/1e6`. -/
def Time.UnixMilli (t : Time) : Int := wrapInt64 (t.sec * 1000 + (t.nsec : Int) / 1000000)

/-! ## Data model -/

/-- An address: the value of a Go pointer. -/
abbrev Ptr := Nat

/-- Go `storage.SeriesRef` (a `uint64`). -/
abbrev SeriesRef := Nat

/-- The message of a Go `error` value. -/
abbrev Error := String

/-- One staged sample: series identity, timestamp, value. -/
structure Sample (L V : Type) where
  l : L
  t : Int
  v : V
  deriving DecidableEq, Repr

/-- Modelled from the spec: the `batch` type, whose declaration is not among the sources.
It is the in-memory accumulation buffer, an ordered sequence of samples. -/
structure batch (L V : Type) where
  samples : List (Sample L V)
  deriving DecidableEq, Repr

/-- Modelled from the spec: `batch.AddMetric`, whose body is not among the sources.
It appends the sample to the in-memory sequence and never fails. -/
def batch.AddMetric {L V : Type} (b : batch L V) (l : L) (t : Int) (v : V) : batch L V :=
  ⟨b.samples ++ [⟨l, t, v⟩]⟩

/-- The `appender` struct: `parent *Queue`, `ttl time.Duration`, `l *batch`. -/
structure appender where
  parent : Ptr
  ttl : Duration
  l : Ptr
  deriving DecidableEq, Repr

/-- Program state seen by the methods of one appender: the receiver object itself and the
batch objects in memory, by address. -/
structure Mem (L V : Type) where
  app : appender
  batches : Ptr → batch L V

/-! ## Operations of `appender.go` -/

/-- `newAppender(parent, ttl, b)`. -/
def newAppender (parent : Ptr) (ttl : Duration) (b : Ptr) : appender :=
  { parent := parent, ttl := ttl, l := b }

/-- The local `endTime` of `Append`:
`time.Now().UTC().Unix() - int64(a.ttl.Seconds())`, an `int64` subtraction. -/
def endTime (a : appender) (now : Time) : Int :=
  wrapInt64 (now.Unix - (Duration.Seconds a.ttl).toInt64)

/-- `appender.Append(ref, l, t, v)`, run when the clock reads `now`. -/
def Append {L V : Type} (s : Mem L V) (now : Time) (ref : SeriesRef) (l : L) (t : Int) (v : V) :
    (SeriesRef × Option Error) × Mem L V :=
  if t < endTime s.app now then
    ((ref, none), s)
  else
    ((ref, none),
      { s with batches := Function.update s.batches s.app.l ((s.batches s.app.l).AddMetric l t v) })

/-- `appender.Commit()`: `return nil`. -/
def Commit {L V : Type} (s : Mem L V) : Option Error × Mem L V :=
  (none, s)

/-- `appender.Rollback()`: `return nil`. -/
def Rollback {L V : Type} (s : Mem L V) : Option Error × Mem L V :=
  (none, s)

/-- `appender.AppendExemplar(ref, l, e)`: `return 0, nil`. -/
def AppendExemplar {L V E : Type} (s : Mem L V) (_ref : SeriesRef) (_l : L) (_e : E) :
    (SeriesRef × Option Error) × Mem L V :=
  ((0, none), s)

/-- `appender.AppendHistogram(ref, l, t, h, fh)`: `return 0, nil`.  The two histogram
pointers may each be nil. -/
def AppendHistogram {L V H FH : Type} (s : Mem L V) (_ref : SeriesRef) (_l : L) (_t : Int)
    (_h : Option H) (_fh : Option FH) : (SeriesRef × Option Error) × Mem L V :=
  ((0, none), s)

/-- `appender.UpdateMetadata(ref, l, m)`: `return 0, nil`. -/
def UpdateMetadata {L V M : Type} (s : Mem L V) (_ref : SeriesRef) (_l : L) (_m : M) :
    (SeriesRef × Option Error) × Mem L V :=
  ((0, none), s)

/-! ## Concrete inputs -/

/-- The clock reading 2023-11-14T22:13:20Z. -/
def exNow : Time := ⟨1700000000, 0, by decide, by decide, by decide⟩

/-- An appender with a five minute TTL bound to the batch at address 2; every batch is
empty. -/
def exMem : Mem String Nat := ⟨newAppender 1 (5 * Minute) 2, fun _ => ⟨[]⟩⟩

/-- An appender with a zero TTL bound to the batch at address 2; every batch is empty. -/
def exMemZero : Mem String Nat := ⟨newAppender 1 0 2, fun _ => ⟨[]⟩⟩

/-- Running `Commit` `n` times in a row. -/
def commitTimes {L V : Type} : Nat → Mem L V → Mem L V
  | 0, s => s
  | n + 1, s => commitTimes n (Commit s).2

/-- The call `Append(ref, l, t, v)` stages the sample: afterwards the bound batch is the
old one after `AddMetric(l, t, v)`. -/
def staged {L V : Type} (s : Mem L V) (now : Time) (ref : SeriesRef) (l : L) (t : Int)
    (v : V) : Prop :=
  (Append s now ref l t v).2.batches s.app.l = (s.batches s.app.l).AddMetric l t v

/-- The call `Append(ref, l, t, v)` drops the sample: afterwards the bound batch is the
old one. -/
def dropped {L V : Type} (s : Mem L V) (now : Time) (ref : SeriesRef) (l : L) (t : Int)
    (v : V) : Prop :=
  (Append s now ref l t v).2.batches s.app.l = s.batches s.app.l

end Batch

namespace Logging

/-! ## Logging options (`internal/alloy/logging/options.go`)

A Go `string` and a Go `[]byte` are both sequences of bytes; the conversions `Level(text)`,
`Format(text)` and `[]byte(ll)` keep the bytes as they are. -/

/-- The bytes of a Go string or byte slice. -/
abbrev Bytes := List (Fin 256)

/-- The bytes of an ASCII string literal of the source. -/
def ascii (s : String) : Bytes := s.toList.map (fun c => Fin.ofNat c.toNat)

/-- The error value built by `fmt.Errorf(format, arg)`.  The message is `format` with the
verb `%q` replaced by `arg` in quotes; the quoting is not rendered here. -/
structure FmtError where
  format : String
  arg : Bytes
  deriving DecidableEq, Repr

/-- `type Level string`. -/
abbrev Level := Bytes

/-- `LevelDebug Level = "debug"`. -/
def LevelDebug : Level := ascii "debug"

/-- `LevelInfo Level = "info"`. -/
def LevelInfo : Level := ascii "info"

/-- `LevelWarn Level = "warn"`. -/
def LevelWarn : Level := ascii "warn"

/-- `LevelError Level = "error"`. -/
def LevelError : Level := ascii "error"

/-- `LevelDefault = LevelInfo`. -/
def LevelDefault : Level := LevelInfo

/-- `Level.MarshalText`: `return []byte(ll), nil`. -/
def Level.MarshalText (ll : Level) : Bytes × Option FmtError :=
  (ll, none)

/-- `(*Level).UnmarshalText(text)`: the `switch Level(text)` with the cases `""`, the four
level constants, and `default`.  The result is the returned error and the value of `*ll`
after the call. -/
def Level.UnmarshalText (ll : Level) (text : Bytes) : Option FmtError × Level :=
  if text = ascii "" then
    (none, LevelDefault)
  else if text = LevelDebug ∨ text = LevelInfo ∨ text = LevelWarn ∨ text = LevelError then
    (none, text)
  else
    (some ⟨"unrecognized logInfo level %q", text⟩, ll)

/-- `type Format string`. -/
abbrev Format := Bytes

/-- `FormatLogfmt Format = "logfmt"`. -/
def FormatLogfmt : Format := ascii "logfmt"

/-- `FormatJSON Format = "json"`. -/
def FormatJSON : Format := ascii "json"

/-- `FormatDefault = FormatLogfmt`. -/
def FormatDefault : Format := FormatLogfmt

/-- `Format.MarshalText`: `return []byte(ll), nil`. -/
def Format.MarshalText (ll : Format) : Bytes × Option FmtError :=
  (ll, none)

/-- `(*Format).UnmarshalText(text)`: the `switch Format(text)` with the cases `""`, the
two format constants, and `default`. -/
def Format.UnmarshalText (ll : Format) (text : Bytes) : Option FmtError × Format :=
  if text = ascii "" then
    (none, FormatDefault)
  else if text = FormatLogfmt ∨ text = FormatJSON then
    (none, text)
  else
    (some ⟨"unrecognized logInfo format %q", text⟩, ll)

/-- The `Options` struct.  `R` stands for `loki.LogsReceiver`; a nil slice is the empty
list. -/
structure Options (R : Type) where
  Level : Level
  Format : Format
  WriteTo : List R

/-- The package variable `DefaultOptions`, which no code of the file assigns to: `Level`
and `Format` are set, `WriteTo` is left at its zero value. -/
def DefaultOptions {R : Type} : Options R :=
  { Level := LevelDefault, Format := FormatDefault, WriteTo := [] }

/-- `(*Options).SetToDefault()`: `*o = DefaultOptions`.  The result is the value of `*o`
after the call. -/
def Options.SetToDefault {R : Type} (_o : Options R) : Options R :=
  DefaultOptions

/-- Go `math.MinInt`, `-1 << (intSize - 1)`, where `intSize` is the bit width of `int` on
the platform (32 or 64). -/
def MinInt (intSize : Nat) : Int := -(2 ^ (intSize - 1))

/-- Go `math.MaxInt`, `1<<(intSize-1) - 1`. -/
def MaxInt (intSize : Nat) : Int := 2 ^ (intSize - 1) - 1

/-- `slog.LevelDebug`. -/
def slogLevelDebug : Int := -4

/-- `slog.LevelInfo`. -/
def slogLevelInfo : Int := 0

/-- `slog.LevelWarn`. -/
def slogLevelWarn : Int := 4

/-- `slog.LevelError`. -/
def slogLevelError : Int := 8

/-- `slogLevel.Level`: the `switch Level(l)` over the four level constants, with
`slog.Level(math.MinInt)` as default.  A `slog.Level` is an `int`. -/
def slogLevel.Level (intSize : Nat) (l : Level) : Int :=
  if l = LevelDebug then slogLevelDebug
  else if l = LevelInfo then slogLevelInfo
  else if l = LevelWarn then slogLevelWarn
  else if l = LevelError then slogLevelError
  else MinInt intSize

/-! ### Reference definitions, written from the specification -/

/-- The names of the supported levels. -/
def levelNames : List Bytes := [ascii "debug", ascii "info", ascii "warn", ascii "error"]

/-- The names of the supported formats. -/
def formatNames : List Bytes := [ascii "logfmt", ascii "json"]

/-- Reference for `Level.UnmarshalText`: empty text gives the default `"info"`, one of the
four level names gives that name, any other text gives the error and leaves the level as
it was. -/
def Level.UnmarshalTextRef (ll : Level) (text : Bytes) : Option FmtError × Level :=
  match text, levelNames.contains text with
  | [], _ => (none, ascii "info")
  | _, true => (none, text)
  | _, false => (some ⟨"unrecognized logInfo level %q", text⟩, ll)

/-- Reference for `Format.UnmarshalText`: empty text gives the default `"logfmt"`, one of
the two format names gives that name, any other text gives the error and leaves the
format as it was. -/
def Format.UnmarshalTextRef (ll : Format) (text : Bytes) : Option FmtError × Format :=
  match text, formatNames.contains text with
  | [], _ => (none, ascii "logfmt")
  | _, true => (none, text)
  | _, false => (some ⟨"unrecognized logInfo format %q", text⟩, ll)

end Logging

namespace Batch

/-! ## Auxiliary facts -/

theorem wrapInt64_of_int64 (x : Int) (h1 : -9223372036854775808 ≤ x)
    (h2 : x < 9223372036854775808) : wrapInt64 x = x := by
  unfold wrapInt64
  omega

theorem seconds_zero : (Duration.Seconds 0).toInt64 = 0 := by decide

theorem seconds_five_minutes : (Duration.Seconds (5 * Minute)).toInt64 = 300 := by decide

theorem endTime_zero_ttl (a : appender) (now : Time) (h : a.ttl = 0) :
    endTime a now = now.Unix := by
  unfold endTime
  rw [h, seconds_zero, sub_zero]
  exact wrapInt64_of_int64 _ now.sec_ge now.sec_lt

/-! ### The conversion `int64(d.Seconds())`

`roundRatio` rounds monotonically and represents 53-bit integers exactly; hence
`int64(d.Seconds())` is monotone in `d` and within one of the truncated quotient
`d / Second`. -/

theorem bitLogAux_spec (fuel : Nat) : ∀ n : Nat, 0 < n → n ≤ fuel →
    2 ^ bitLogAux fuel n ≤ n ∧ n < 2 ^ (bitLogAux fuel n + 1) := by
  induction fuel with
  | zero => intro n h1 h2; omega
  | succ f ih =>
    intro n h1 h2
    unfold bitLogAux
    by_cases h : n < 2
    · rw [if_pos h]
      simp
      omega
    · rw [if_neg h]
      have := ih (n / 2) (by omega) (by omega)
      obtain ⟨a, b⟩ := this
      rw [pow_succ, pow_succ]
      rw [pow_succ] at b
      constructor <;> omega

theorem bitLog_spec (n : Nat) (h : 0 < n) : 2 ^ bitLog n ≤ n ∧ n < 2 ^ (bitLog n + 1) :=
  bitLogAux_spec n n h le_rfl

theorem rne_floor_le (y : ℚ) : ⌊y⌋ ≤ rne y := by
  unfold rne
  split <;> omega

theorem rne_le_floor_succ (y : ℚ) : rne y ≤ ⌊y⌋ + 1 := by
  unfold rne
  split <;> omega

theorem rne_mono {y z : ℚ} (h : y ≤ z) : rne y ≤ rne z := by
  have hf : ⌊y⌋ ≤ ⌊z⌋ := Int.floor_mono h
  rcases lt_or_eq_of_le hf with hlt | heq
  · calc rne y ≤ ⌊y⌋ + 1 := rne_le_floor_succ y
      _ ≤ ⌊z⌋ := hlt
      _ ≤ rne z := rne_floor_le z
  · have hfr : Int.fract y ≤ Int.fract z := by
      unfold Int.fract
      rw [heq]
      linarith
    unfold rne
    rw [heq]
    by_cases c : 1 / 2 < Int.fract y ∨ (Int.fract y = 1 / 2 ∧ ⌊z⌋ % 2 = 1)
    · have c2 : 1 / 2 < Int.fract z ∨ (Int.fract z = 1 / 2 ∧ ⌊z⌋ % 2 = 1) := by
        rcases c with c | ⟨c1, c2⟩
        · exact Or.inl (lt_of_lt_of_le c hfr)
        · rcases lt_or_eq_of_le hfr with h1 | h1
          · exact Or.inl (by rw [c1] at h1; exact h1)
          · exact Or.inr ⟨by rw [← h1]; exact c1, c2⟩
      rw [if_pos c, if_pos c2]
    · rw [if_neg c]
      split <;> omega

theorem rne_intCast (z : Int) : rne (z : ℚ) = z := by
  unfold rne
  simp

theorem rne_natDiv (num den : Nat) (hd : 0 < den) :
    rne ((num : ℚ) / den) = (divRoundEven num den : Int) := by
  unfold divRoundEven
  have hdq : (0 : ℚ) < den := by exact_mod_cast hd
  have hfl : ⌊(num : ℚ) / den⌋ = ((num / den : Nat) : Int) := by
    rw [Rat.floor_natCast_div_natCast]
    simp
  have hfr : Int.fract ((num : ℚ) / den) = ((num % den : Nat) : ℚ) / den :=
    Int.fract_div_natCast_eq_div_natCast_mod
  unfold rne
  rw [hfl, hfr]
  have e1 : (1 / 2 < ((num % den : Nat) : ℚ) / den) ↔ den < 2 * (num % den) := by
    rw [lt_div_iff₀ hdq]
    constructor
    · intro h
      have : (den : ℚ) < 2 * ((num % den : Nat) : ℚ) := by linarith
      exact_mod_cast this
    · intro h
      have : (den : ℚ) < 2 * ((num % den : Nat) : ℚ) := by exact_mod_cast h
      linarith
  have e2 : (((num % den : Nat) : ℚ) / den = 1 / 2) ↔ 2 * (num % den) = den := by
    rw [div_eq_iff (ne_of_gt hdq)]
    constructor
    · intro h
      have : 2 * ((num % den : Nat) : ℚ) = (den : ℚ) := by linarith
      exact_mod_cast this
    · intro h
      have : 2 * ((num % den : Nat) : ℚ) = (den : ℚ) := by exact_mod_cast h
      linarith
  have e3 : (((num / den : Nat) : Int) % 2 = 1) ↔ (num / den) % 2 = 1 := by omega
  simp only [e1, e2, e3]
  split <;> simp
theorem two_zpow_split (e : Int) :
    ((2 ^ e.toNat : Nat) : ℚ) / ((2 ^ (-e).toNat : Nat) : ℚ) = (2 : ℚ) ^ e := by
  rcases le_total 0 e with h | h
  · obtain ⟨k, rfl⟩ := Int.eq_ofNat_of_zero_le h
    have h1 : (-(k : Int)).toNat = 0 := Int.toNat_eq_zero.mpr (by omega)
    rw [h1, Int.toNat_natCast, zpow_natCast]
    simp
  · obtain ⟨k, hk⟩ := Int.eq_ofNat_of_zero_le (by omega : 0 ≤ -e)
    have h0 : e = -(k : Int) := by omega
    subst h0
    have h1 : (-(k : Int)).toNat = 0 := Int.toNat_eq_zero.mpr (by omega)
    rw [h1, neg_neg, Int.toNat_natCast, zpow_neg, zpow_natCast]
    simp

theorem scaled_ratio (a d : Nat) (e : Int) :
    ((a * 2 ^ (-e).toNat : Nat) : ℚ) / ((d * 2 ^ e.toNat : Nat) : ℚ)
      = (a : ℚ) / d / (2 : ℚ) ^ e := by
  rw [← two_zpow_split e]
  have h1 : ((2 ^ e.toNat : Nat) : ℚ) ≠ 0 := by positivity
  have h2 : ((2 ^ (-e).toNat : Nat) : ℚ) ≠ 0 := by positivity
  push_cast
  by_cases hd : (d : ℚ) = 0
  · rw [hd]; simp
  · field_simp

theorem scaled_le_iff (a d : Nat) (hd : 0 < d) (k : Int) :
    d * 2 ^ k.toNat ≤ a * 2 ^ (-k).toNat ↔ (2 : ℚ) ^ k ≤ (a : ℚ) / d := by
  have hdq : (0 : ℚ) < d := by exact_mod_cast hd
  have hN : (0 : ℚ) < ((2 ^ (-k).toNat : Nat) : ℚ) := by positivity
  rw [← two_zpow_split k, div_le_div_iff₀ hN hdq]
  constructor
  · intro h
    have : ((d * 2 ^ k.toNat : Nat) : ℚ) ≤ ((a * 2 ^ (-k).toNat : Nat) : ℚ) := by exact_mod_cast h
    push_cast at this ⊢
    linarith
  · intro h
    have : ((d * 2 ^ k.toNat : Nat) : ℚ) ≤ ((a * 2 ^ (-k).toNat : Nat) : ℚ) := by
      push_cast at h ⊢
      linarith
    exact_mod_cast this

theorem ratioLog_spec (a d : Nat) (ha : 0 < a) (hd : 0 < d) :
    (2 : ℚ) ^ ratioLog a d ≤ (a : ℚ) / d ∧ (a : ℚ) / d < (2 : ℚ) ^ (ratioLog a d + 1) := by
  have hdq : (0 : ℚ) < d := by exact_mod_cast hd
  obtain ⟨a1, a2⟩ := bitLog_spec a ha
  obtain ⟨d1, d2⟩ := bitLog_spec d hd
  have a1q : (2 : ℚ) ^ (bitLog a : Int) ≤ a := by rw [zpow_natCast]; exact_mod_cast a1
  have a2q : (a : ℚ) < (2 : ℚ) ^ ((bitLog a : Int) + 1) := by
    have : (a : ℚ) < (2 : ℚ) ^ (bitLog a + 1) := by exact_mod_cast a2
    rw [← zpow_natCast] at this
    push_cast at this
    exact this
  have d1q : (2 : ℚ) ^ (bitLog d : Int) ≤ d := by rw [zpow_natCast]; exact_mod_cast d1
  have d2q : (d : ℚ) < (2 : ℚ) ^ ((bitLog d : Int) + 1) := by
    have : (d : ℚ) < (2 : ℚ) ^ (bitLog d + 1) := by exact_mod_cast d2
    rw [← zpow_natCast] at this
    push_cast at this
    exact this
  have hpd : (0 : ℚ) < (2 : ℚ) ^ (bitLog d : Int) := by positivity
  have hpd1 : (0 : ℚ) < (2 : ℚ) ^ ((bitLog d : Int) + 1) := by positivity
  -- a / d < 2 ^ (k0 + 1)
  have up : (a : ℚ) / d < (2 : ℚ) ^ ((bitLog a : Int) - (bitLog d : Int) + 1) := by
    have e : (2 : ℚ) ^ ((bitLog a : Int) - (bitLog d : Int) + 1)
        = (2 : ℚ) ^ ((bitLog a : Int) + 1) / (2 : ℚ) ^ (bitLog d : Int) := by
      rw [← zpow_sub₀ (by norm_num : (2 : ℚ) ≠ 0)]
      congr 1
      ring
    rw [e, div_lt_div_iff₀ hdq hpd]
    calc (a : ℚ) * 2 ^ (bitLog d : Int) < 2 ^ ((bitLog a : Int) + 1) * 2 ^ (bitLog d : Int) := by
          exact mul_lt_mul_of_pos_right a2q hpd
      _ ≤ 2 ^ ((bitLog a : Int) + 1) * d := by
          exact mul_le_mul_of_nonneg_left d1q (by positivity)
  -- 2 ^ (k0 - 1) ≤ a / d
  have lo : (2 : ℚ) ^ ((bitLog a : Int) - (bitLog d : Int) - 1) ≤ (a : ℚ) / d := by
    have e : (2 : ℚ) ^ ((bitLog a : Int) - (bitLog d : Int) - 1)
        = (2 : ℚ) ^ (bitLog a : Int) / (2 : ℚ) ^ ((bitLog d : Int) + 1) := by
      rw [← zpow_sub₀ (by norm_num : (2 : ℚ) ≠ 0)]
      congr 1
      ring
    rw [e, div_le_div_iff₀ hpd1 hdq]
    calc (2 : ℚ) ^ (bitLog a : Int) * d ≤ a * d := by
          exact mul_le_mul_of_nonneg_right a1q (le_of_lt hdq)
      _ ≤ a * 2 ^ ((bitLog d : Int) + 1) := by
          exact mul_le_mul_of_nonneg_left (le_of_lt d2q) (by positivity)
  unfold ratioLog
  simp only
  split
  · rename_i h
    exact ⟨(scaled_le_iff a d hd _).mp h, up⟩
  · rename_i h
    refine ⟨lo, ?_⟩
    rw [sub_add_cancel]
    exact lt_of_not_le (fun c => h ((scaled_le_iff a d hd _).mpr c))

theorem roundRatio_pos (n : Int) (d : Nat) (hn : 0 < n) (hd : 0 < d) :
    ∃ e : Int, (2 : ℚ) ^ (e + 52) ≤ (n : ℚ) / d ∧ (n : ℚ) / d < (2 : ℚ) ^ (e + 53) ∧
      roundRatio n d = ⟨rne ((n : ℚ) / d / (2 : ℚ) ^ e), e⟩ := by
  have ha : ((n.natAbs : Nat) : Int) = n := Int.natAbs_of_nonneg (le_of_lt hn)
  have haq : ((n.natAbs : Nat) : ℚ) = (n : ℚ) := by
    rw [← Int.cast_natCast, ha]
  have hapos : 0 < n.natAbs := by omega
  obtain ⟨s1, s2⟩ := ratioLog_spec n.natAbs d hapos hd
  rw [haq] at s1 s2
  refine ⟨ratioLog n.natAbs d - 52, ?_, ?_, ?_⟩
  · rw [sub_add_cancel]; exact s1
  · have : ratioLog n.natAbs d - 52 + 53 = ratioLog n.natAbs d + 1 := by ring
    rw [this]; exact s2
  · unfold roundRatio
    rw [if_neg (by omega)]
    simp only
    have hden : 0 < d * 2 ^ (ratioLog n.natAbs d - 52).toNat := by positivity
    rw [← rne_natDiv _ _ hden, scaled_ratio, haq, Int.sign_eq_one_of_pos hn, one_mul]
theorem roundRatio_neg (n : Int) (d : Nat) :
    roundRatio (-n) d = ⟨-(roundRatio n d).m, (roundRatio n d).e⟩ := by
  unfold roundRatio
  by_cases h : n = 0 ∨ d = 0
  · have h2 : -n = 0 ∨ d = 0 := by omega
    rw [if_pos h, if_pos h2]
    simp
  · have h2 : ¬ (-n = 0 ∨ d = 0) := by omega
    rw [if_neg h, if_neg h2]
    simp

theorem roundRatio_zero (d : Nat) : roundRatio 0 d = ⟨0, 0⟩ := by
  unfold roundRatio
  simp

theorem val_roundRatio_neg (n : Int) (d : Nat) :
    (roundRatio (-n) d).val = -(roundRatio n d).val := by
  rw [roundRatio_neg]
  unfold F64.val
  simp

theorem val_roundRatio_zero (d : Nat) : (roundRatio 0 d).val = 0 := by
  rw [roundRatio_zero]
  unfold F64.val
  simp

/-- Shape of a rounded positive ratio: the scaled value, and the binade it lies in. -/
theorem val_roundRatio_pos (n : Int) (d : Nat) (hn : 0 < n) (hd : 0 < d) :
    ∃ e : Int, (2 : ℚ) ^ (e + 52) ≤ (n : ℚ) / d ∧ (n : ℚ) / d < (2 : ℚ) ^ (e + 53) ∧
      (roundRatio n d).val = (rne ((n : ℚ) / d / (2 : ℚ) ^ e) : ℚ) * (2 : ℚ) ^ e ∧
      (2 : ℚ) ^ (e + 52) ≤ (roundRatio n d).val ∧ (roundRatio n d).val ≤ (2 : ℚ) ^ (e + 53) := by
  obtain ⟨e, lo, hi, eq⟩ := roundRatio_pos n d hn hd
  have hv : (roundRatio n d).val = (rne ((n : ℚ) / d / (2 : ℚ) ^ e) : ℚ) * (2 : ℚ) ^ e := by
    rw [eq]
    rfl
  have hp : (0 : ℚ) < (2 : ℚ) ^ e := by positivity
  have s1 : (2 : ℚ) ^ (52 : Int) ≤ (n : ℚ) / d / (2 : ℚ) ^ e := by
    rw [le_div_iff₀ hp, ← zpow_add₀ (by norm_num : (2 : ℚ) ≠ 0)]
    have : (52 : Int) + e = e + 52 := by ring
    rw [this]
    exact lo
  have s2 : (n : ℚ) / d / (2 : ℚ) ^ e ≤ (2 : ℚ) ^ (53 : Int) := by
    rw [div_le_iff₀ hp, ← zpow_add₀ (by norm_num : (2 : ℚ) ≠ 0)]
    have : (53 : Int) + e = e + 53 := by ring
    rw [this]
    exact le_of_lt hi
  have c52 : ((2 : ℚ) ^ (52 : Int)) = (((2 ^ 52 : Int)) : ℚ) := by norm_num
  have c53 : ((2 : ℚ) ^ (53 : Int)) = (((2 ^ 53 : Int)) : ℚ) := by norm_num
  have r1 : (2 ^ 52 : Int) ≤ rne ((n : ℚ) / d / (2 : ℚ) ^ e) := by
    have := rne_mono s1
    rw [c52, rne_intCast] at this
    exact this
  have r2 : rne ((n : ℚ) / d / (2 : ℚ) ^ e) ≤ (2 ^ 53 : Int) := by
    have := rne_mono s2
    rw [c53, rne_intCast] at this
    exact this
  refine ⟨e, lo, hi, hv, ?_, ?_⟩
  · rw [hv, zpow_add₀ (by norm_num : (2 : ℚ) ≠ 0), mul_comm ((2 : ℚ) ^ e)]
    apply mul_le_mul_of_nonneg_right _ (le_of_lt hp)
    rw [c52]
    exact_mod_cast r1
  · rw [hv, zpow_add₀ (by norm_num : (2 : ℚ) ≠ 0), mul_comm ((2 : ℚ) ^ e)]
    apply mul_le_mul_of_nonneg_right _ (le_of_lt hp)
    rw [c53]
    exact_mod_cast r2

theorem val_roundRatio_pos_of_pos (n : Int) (d : Nat) (hn : 0 < n) (hd : 0 < d) :
    0 < (roundRatio n d).val := by
  obtain ⟨e, _, _, _, h, _⟩ := val_roundRatio_pos n d hn hd
  exact lt_of_lt_of_le (by positivity) h

theorem val_roundRatio_mono_pos (n n' : Int) (d d' : Nat) (hn : 0 < n) (hn' : 0 < n')
    (hd : 0 < d) (hd' : 0 < d') (h : (n : ℚ) / d ≤ (n' : ℚ) / d') :
    (roundRatio n d).val ≤ (roundRatio n' d').val := by
  obtain ⟨e, lo, _, hv, _, up⟩ := val_roundRatio_pos n d hn hd
  obtain ⟨e', _, hi', hv', lo', _⟩ := val_roundRatio_pos n' d' hn' hd'
  have hlt : (2 : ℚ) ^ (e + 52) < (2 : ℚ) ^ (e' + 53) :=
    lt_of_le_of_lt lo (lt_of_le_of_lt h hi')
  have hee : e + 52 < e' + 53 := (zpow_lt_zpow_iff_right₀ (by norm_num : (1 : ℚ) < 2)).mp hlt
  rcases eq_or_lt_of_le (by omega : e ≤ e') with he | he
  · subst he
    rw [hv, hv']
    have hp : (0 : ℚ) < (2 : ℚ) ^ e := by positivity
    apply mul_le_mul_of_nonneg_right _ (le_of_lt hp)
    have : (n : ℚ) / d / (2 : ℚ) ^ e ≤ (n' : ℚ) / d' / (2 : ℚ) ^ e :=
      div_le_div_of_nonneg_right h (le_of_lt hp)
    exact_mod_cast rne_mono this
  · calc (roundRatio n d).val ≤ (2 : ℚ) ^ (e + 53) := up
      _ ≤ (2 : ℚ) ^ (e' + 52) := zpow_le_zpow_right₀ (by norm_num) (by omega)
      _ ≤ (roundRatio n' d').val := lo'

/-- Rounding is monotone in the ratio that is rounded. -/
theorem val_roundRatio_mono (n n' : Int) (d d' : Nat) (hd : 0 < d) (hd' : 0 < d')
    (h : (n : ℚ) / d ≤ (n' : ℚ) / d') :
    (roundRatio n d).val ≤ (roundRatio n' d').val := by
  have hdq : (0 : ℚ) < d := by exact_mod_cast hd
  have hdq' : (0 : ℚ) < d' := by exact_mod_cast hd'
  have sgn_pos : ∀ (m : Int) (c : Nat), 0 < c → 0 ≤ m → 0 ≤ (roundRatio m c).val := by
    intro m c hc hm
    rcases eq_or_lt_of_le hm with h0 | h0
    · rw [← h0, val_roundRatio_zero]
    · exact le_of_lt (val_roundRatio_pos_of_pos m c h0 hc)
  have sgn_neg : ∀ (m : Int) (c : Nat), 0 < c → m ≤ 0 → (roundRatio m c).val ≤ 0 := by
    intro m c hc hm
    have := sgn_pos (-m) c hc (by omega)
    rw [val_roundRatio_neg] at this
    linarith
  rcases lt_trichotomy n 0 with hn | hn | hn
  · rcases le_or_lt 0 n' with hn' | hn'
    · exact le_trans (sgn_neg n d hd (le_of_lt hn)) (sgn_pos n' d' hd' hn')
    · -- both negative
      have key := val_roundRatio_mono_pos (-n') (-n) d' d (by omega) (by omega) hd' hd (by
        push_cast
        rw [neg_div, neg_div]
        linarith)
      rw [val_roundRatio_neg, val_roundRatio_neg] at key
      linarith
  · subst hn
    have h0 : (0 : ℚ) ≤ (n' : ℚ) / d' := by simpa using h
    have hn' : 0 ≤ n' := by
      by_contra c
      have : (n' : ℚ) < 0 := by exact_mod_cast (not_le.mp c)
      have := div_neg_of_neg_of_pos this hdq'
      linarith
    rw [val_roundRatio_zero]
    exact sgn_pos n' d' hd' hn'
  · have hx : (0 : ℚ) < (n : ℚ) / d := by
      have : (0 : ℚ) < n := by exact_mod_cast hn
      positivity
    have hn' : 0 < n' := by
      by_contra c
      have : (n' : ℚ) ≤ 0 := by exact_mod_cast (not_lt.mp c)
      have := div_nonpos_of_nonpos_of_nonneg this (le_of_lt hdq')
      linarith
    exact val_roundRatio_mono_pos n n' d d' hn hn' hd hd' h

/-- Integers of at most 53 bits are represented exactly. -/
theorem val_roundRatio_int (n : Int) (h1 : -9007199254740992 ≤ n) (h2 : n ≤ 9007199254740992) :
    (roundRatio n 1).val = n := by
  have pos : ∀ m : Int, 0 < m → m ≤ 9007199254740992 → (roundRatio m 1).val = m := by
    intro m hm hm2
    obtain ⟨e, lo, _, hv, _, _⟩ := val_roundRatio_pos m 1 hm (by norm_num)
    simp only [Nat.cast_one, div_one] at lo hv
    have hmq : (m : ℚ) ≤ (2 : ℚ) ^ (53 : Int) := by
      have : (m : ℚ) ≤ ((9007199254740992 : Int) : ℚ) := by exact_mod_cast hm2
      calc (m : ℚ) ≤ ((9007199254740992 : Int) : ℚ) := this
        _ = (2 : ℚ) ^ (53 : Int) := by norm_num
    have he : e + 52 ≤ 53 :=
      (zpow_le_zpow_iff_right₀ (by norm_num : (1 : ℚ) < 2)).mp (le_trans lo hmq)
    have he1 : e ≤ 1 := by omega
    rcases eq_or_lt_of_le he1 with h1e | h1e
    · -- only possible for m = 2 ^ 53
      subst h1e
      have hm53 : m = 9007199254740992 := by
        have : ((9007199254740992 : Int) : ℚ) ≤ (m : ℚ) := by
          calc ((9007199254740992 : Int) : ℚ) = (2 : ℚ) ^ ((1 : Int) + 52) := by norm_num
            _ ≤ m := lo
        have : (9007199254740992 : Int) ≤ m := by exact_mod_cast this
        omega
      subst hm53
      rw [hv]
      have : ((9007199254740992 : Int) : ℚ) / (2 : ℚ) ^ (1 : Int)
          = ((4503599627370496 : Int) : ℚ) := by norm_num
      rw [this, rne_intCast]
      norm_num
    · obtain ⟨k, hk⟩ := Int.eq_ofNat_of_zero_le (by omega : 0 ≤ -e)
      have h0 : e = -(k : Int) := by omega
      subst h0
      rw [hv]
      have : (m : ℚ) / (2 : ℚ) ^ (-(k : Int)) = ((m * 2 ^ k : Int) : ℚ) := by
        rw [zpow_neg, zpow_natCast]
        push_cast
        field_simp
      rw [this, rne_intCast, zpow_neg, zpow_natCast]
      push_cast
      field_simp
  rcases lt_trichotomy n 0 with hn | hn | hn
  · have := pos (-n) (by omega) (by omega)
    rw [val_roundRatio_neg] at this
    push_cast at this
    linarith
  · subst hn
    rw [val_roundRatio_zero]
    simp
  · exact pos n hn h2
theorem two_zpow_split_cast (e : Int) :
    (2 : ℚ) ^ e.toNat / (2 : ℚ) ^ (-e).toNat = (2 : ℚ) ^ e := by
  have := two_zpow_split e
  push_cast at this
  exact this

theorem two_pow_toNat (j : Int) (hj : 0 ≤ j) : (2 : ℚ) ^ j.toNat = (2 : ℚ) ^ j := by
  obtain ⟨k, rfl⟩ := Int.eq_ofNat_of_zero_le hj
  rw [Int.toNat_natCast, zpow_natCast]

theorem val_ofInt (n : Int) (h1 : -9007199254740992 ≤ n) (h2 : n ≤ 9007199254740992) :
    (F64.ofInt n).val = n :=
  val_roundRatio_int n h1 h2

/-- The sum is the rounding of the exact sum. -/
theorem add_eq_roundRatio (x y : F64) :
    ∃ N : Int, ∃ D : Nat, 0 < D ∧ F64.add x y = roundRatio N D ∧
      (N : ℚ) / D = x.val + y.val := by
  refine ⟨(x.m * 2 ^ (x.e - min x.e y.e).toNat + y.m * 2 ^ (y.e - min x.e y.e).toNat)
      * 2 ^ (min x.e y.e).toNat, 2 ^ (-(min x.e y.e)).toNat, by positivity, rfl, ?_⟩
  have hx : (2 : ℚ) ^ (x.e - min x.e y.e).toNat = (2 : ℚ) ^ (x.e - min x.e y.e) :=
    two_pow_toNat _ (by have := min_le_left x.e y.e; omega)
  have hy : (2 : ℚ) ^ (y.e - min x.e y.e).toNat = (2 : ℚ) ^ (y.e - min x.e y.e) :=
    two_pow_toNat _ (by have := min_le_right x.e y.e; omega)
  have h2 : (2 : ℚ) ≠ 0 := by norm_num
  push_cast
  rw [mul_div_assoc, two_zpow_split_cast, hx, hy, add_mul, mul_assoc, mul_assoc,
    ← zpow_add₀ h2, ← zpow_add₀ h2, sub_add_cancel, sub_add_cancel]
  rfl

/-- The quotient by a positive float is the rounding of the exact quotient. -/
theorem div_eq_roundRatio (x y : F64) (hy : 0 < y.m) :
    ∃ N : Int, ∃ D : Nat, 0 < D ∧ F64.div x y = roundRatio N D ∧
      (N : ℚ) / D = x.val / y.val := by
  have hna : 0 < y.m.natAbs := by omega
  refine ⟨x.m * y.m.sign * 2 ^ (x.e - y.e).toNat, y.m.natAbs * 2 ^ (y.e - x.e).toNat,
    by positivity, rfl, ?_⟩
  have hyq : ((y.m.natAbs : Nat) : ℚ) = (y.m : ℚ) := by
    rw [← Int.cast_natCast, Int.natAbs_of_nonneg (le_of_lt hy)]
  have hm : (y.m : ℚ) ≠ 0 := by
    have : (0 : ℚ) < y.m := by exact_mod_cast hy
    exact ne_of_gt this
  have hsw : (y.e - x.e).toNat = (-(x.e - y.e)).toNat := by rw [neg_sub]
  have h2 : (2 : ℚ) ≠ 0 := by norm_num
  rw [Int.sign_eq_one_of_pos hy, mul_one, hsw]
  push_cast
  rw [hyq]
  unfold F64.val
  rw [mul_div_mul_comm, two_zpow_split_cast, zpow_sub₀ h2, mul_div_mul_comm]

theorem toInt64_of_nonneg (x : F64) (h : 0 ≤ x.m) : x.toInt64 = ⌊x.val⌋ := by
  unfold F64.toInt64 F64.val
  rw [Int.tdiv_eq_ediv (by positivity) (by positivity)]
  have : (x.m : ℚ) * (2 : ℚ) ^ x.e
      = ((x.m * 2 ^ x.e.toNat : Int) : ℚ) / ((2 ^ (-x.e).toNat : Nat) : ℚ) := by
    push_cast
    rw [mul_div_assoc, two_zpow_split_cast]
  rw [this, Rat.floor_intCast_div_natCast]
  push_cast
  rfl

theorem toInt64_neg (m e : Int) : F64.toInt64 ⟨-m, e⟩ = -F64.toInt64 ⟨m, e⟩ := by
  unfold F64.toInt64
  simp

theorem val_nonneg_iff (x : F64) : 0 ≤ x.val ↔ 0 ≤ x.m := by
  unfold F64.val
  have hp : (0 : ℚ) < (2 : ℚ) ^ x.e := by positivity
  constructor
  · intro h
    have : (0 : ℚ) ≤ x.m := by
      by_contra c
      have := mul_neg_of_neg_of_pos (not_le.mp c) hp
      linarith
    exact_mod_cast this
  · intro h
    have : (0 : ℚ) ≤ x.m := by exact_mod_cast h
    positivity

/-- Truncation is monotone in the value. -/
theorem toInt64_mono (x y : F64) (h : x.val ≤ y.val) : x.toInt64 ≤ y.toInt64 := by
  have negForm : ∀ z : F64, z.m < 0 → z.toInt64 = -⌊-z.val⌋ := by
    intro z hz
    have e1 : z = ⟨-(-z.m), z.e⟩ := by simp
    have e2 := toInt64_of_nonneg ⟨-z.m, z.e⟩ (by show 0 ≤ -z.m; omega)
    have e3 : (⟨-z.m, z.e⟩ : F64).val = -z.val := by
      unfold F64.val
      push_cast
      ring
    rw [e1, toInt64_neg, e2, e3]
    simp
  rcases le_or_lt 0 x.m with hx | hx
  · have hy : 0 ≤ y.m := (val_nonneg_iff y).mp (le_trans ((val_nonneg_iff x).mpr hx) h)
    rw [toInt64_of_nonneg x hx, toInt64_of_nonneg y hy]
    exact Int.floor_mono h
  · rcases le_or_lt 0 y.m with hy | hy
    · rw [negForm x hx, toInt64_of_nonneg y hy]
      have hxv : x.val < 0 := by
        by_contra c
        have := (val_nonneg_iff x).mp (not_lt.mp c)
        omega
      have h1 : 0 ≤ ⌊-x.val⌋ := Int.floor_nonneg.mpr (by linarith)
      have h2 : 0 ≤ ⌊y.val⌋ := Int.floor_nonneg.mpr ((val_nonneg_iff y).mpr hy)
      omega
    · rw [negForm x hx, negForm y hy]
      have : ⌊-y.val⌋ ≤ ⌊-x.val⌋ := Int.floor_mono (by linarith)
      omega
theorem ofInt_billion : F64.ofInt 1000000000 = ⟨8388608000000000, -23⟩ := by decide

theorem val_billion : (F64.ofInt 1000000000).val = 1000000000 := by
  rw [ofInt_billion]
  unfold F64.val
  norm_num

/-- The fractional term `float64(nsec)/1e9` of `Duration.Seconds` is a rounding of
`nsec / 1e9`. -/
theorem frac_eq_roundRatio (n : Int) (h1 : -1000000000 < n) (h2 : n < 1000000000) :
    ∃ N : Int, ∃ D : Nat, 0 < D ∧
      F64.div (F64.ofInt n) (F64.ofInt 1000000000) = roundRatio N D ∧
      (N : ℚ) / D = (n : ℚ) / 1000000000 := by
  obtain ⟨N, D, hD, e1, e2⟩ := div_eq_roundRatio (F64.ofInt n) (F64.ofInt 1000000000)
    (by rw [ofInt_billion]; decide)
  refine ⟨N, D, hD, e1, ?_⟩
  rw [e2, val_billion, val_ofInt n (by omega) (by omega)]

theorem val_frac_mono (n n' : Int) (h1 : -1000000000 < n) (h2 : n ≤ n')
    (h3 : n' < 1000000000) :
    (F64.div (F64.ofInt n) (F64.ofInt 1000000000)).val
      ≤ (F64.div (F64.ofInt n') (F64.ofInt 1000000000)).val := by
  obtain ⟨N, D, hD, e1, e2⟩ := frac_eq_roundRatio n h1 (by omega)
  obtain ⟨N', D', hD', e1', e2'⟩ := frac_eq_roundRatio n' (by omega) h3
  rw [e1, e1']
  apply val_roundRatio_mono N N' D D' hD hD'
  rw [e2, e2']
  have : (n : ℚ) ≤ n' := by exact_mod_cast h2
  exact div_le_div_of_nonneg_right this (by norm_num)

theorem val_frac_bounds (n : Int) (h1 : 0 ≤ n) (h2 : n < 1000000000) :
    0 ≤ (F64.div (F64.ofInt n) (F64.ofInt 1000000000)).val ∧
      (F64.div (F64.ofInt n) (F64.ofInt 1000000000)).val ≤ 1 := by
  obtain ⟨N, D, hD, e1, e2⟩ := frac_eq_roundRatio n (by omega) h2
  have hn : (0 : ℚ) ≤ n := by exact_mod_cast h1
  have hn2 : (n : ℚ) < 1000000000 := by exact_mod_cast h2
  rw [e1]
  constructor
  · have := val_roundRatio_mono 0 N 1 D (by norm_num) hD (by
      rw [e2]
      simp only [Int.cast_zero, zero_div]
      positivity)
    rw [val_roundRatio_zero] at this
    exact this
  · have := val_roundRatio_mono N 1 D 1 hD (by norm_num) (by
      rw [e2, div_le_iff₀ (by norm_num)]
      simp only [Int.cast_one, Nat.cast_one, div_one, one_mul]
      linarith)
    rw [val_roundRatio_int 1 (by norm_num) (by norm_num)] at this
    simpa using this

theorem tmod_billion_neg (d : Int) :
    Int.tmod (-d) 1000000000 = -Int.tmod d 1000000000 := by
  have h1 := Int.tmod_add_tdiv d 1000000000
  have h2 := Int.tmod_add_tdiv (-d) 1000000000
  rw [Int.neg_tdiv] at h2
  omega

theorem ofInt_neg (n : Int) : F64.ofInt (-n) = ⟨-(F64.ofInt n).m, (F64.ofInt n).e⟩ :=
  roundRatio_neg n 1

theorem div_neg_left (m e : Int) (y : F64) :
    F64.div ⟨-m, e⟩ y = ⟨-(F64.div ⟨m, e⟩ y).m, (F64.div ⟨m, e⟩ y).e⟩ := by
  unfold F64.div
  simp only [neg_mul]
  exact roundRatio_neg _ _

theorem add_neg_neg (m e m2 e2 : Int) :
    F64.add ⟨-m, e⟩ ⟨-m2, e2⟩ = ⟨-(F64.add ⟨m, e⟩ ⟨m2, e2⟩).m, (F64.add ⟨m, e⟩ ⟨m2, e2⟩).e⟩ := by
  unfold F64.add
  simp only [neg_mul, ← neg_add]
  exact roundRatio_neg _ _

/-- The conversion `Duration.Seconds` is odd. -/
theorem Seconds_neg (d : Int) :
    Duration.Seconds (-d) = ⟨-(Duration.Seconds d).m, (Duration.Seconds d).e⟩ := by
  unfold Duration.Seconds Second
  simp only
  rw [Int.neg_tdiv, tmod_billion_neg, ofInt_neg, ofInt_neg, div_neg_left, add_neg_neg]

theorem seconds_toInt64_neg (d : Int) :
    (Duration.Seconds (-d)).toInt64 = -(Duration.Seconds d).toInt64 := by
  rw [Seconds_neg, toInt64_neg]

/-- For a non-negative `int64` duration the sum inside `Duration.Seconds` is a rounding of
`sec + y`, where `y` is the rounded fractional term. -/
theorem Seconds_eq_roundRatio (d : Int) :
    ∃ N : Int, ∃ D : Nat, 0 < D ∧ Duration.Seconds d = roundRatio N D ∧
      (N : ℚ) / D = (F64.ofInt (Int.tdiv d 1000000000)).val
        + (F64.div (F64.ofInt (Int.tmod d 1000000000)) (F64.ofInt 1000000000)).val :=
  add_eq_roundRatio _ _

theorem seconds_toInt64_bounds_nonneg (d : Int) (h1 : 0 ≤ d)
    (h2 : d ≤ 9223372036854775808) :
    d / 1000000000 ≤ (Duration.Seconds d).toInt64 ∧
      (Duration.Seconds d).toInt64 ≤ d / 1000000000 + 1 := by
  obtain ⟨N, D, hD, e1, e2⟩ := Seconds_eq_roundRatio d
  rw [Int.tdiv_eq_ediv h1 (by norm_num), Int.tmod_eq_emod h1 (by norm_num)] at e2
  have hsec : (F64.ofInt (d / 1000000000)).val = ((d / 1000000000 : Int) : ℚ) :=
    val_ofInt _ (by omega) (by omega)
  obtain ⟨y0, y1⟩ := val_frac_bounds (d % 1000000000) (by omega) (by omega)
  rw [hsec] at e2
  have lo : (((d / 1000000000 : Int)) : ℚ) ≤ (Duration.Seconds d).val := by
    have := val_roundRatio_mono (d / 1000000000) N 1 D (by norm_num) hD (by
      rw [e2]
      simp only [Nat.cast_one, div_one]
      linarith)
    rw [val_roundRatio_int _ (by omega) (by omega)] at this
    rw [e1]
    exact this
  have hi : (Duration.Seconds d).val ≤ ((d / 1000000000 + 1 : Int) : ℚ) := by
    have := val_roundRatio_mono N (d / 1000000000 + 1) D 1 hD (by norm_num) (by
      rw [e2]
      simp only [Nat.cast_one, div_one]
      push_cast
      linarith)
    rw [val_roundRatio_int _ (by omega) (by omega)] at this
    rw [e1]
    exact this
  have hm : 0 ≤ (Duration.Seconds d).m := by
    apply (val_nonneg_iff _).mp
    have : (0 : ℚ) ≤ ((d / 1000000000 : Int) : ℚ) := by
      have : (0 : Int) ≤ d / 1000000000 := by omega
      exact_mod_cast this
    linarith
  rw [toInt64_of_nonneg _ hm]
  constructor
  · exact Int.le_floor.mpr lo
  · have := Int.floor_mono hi
    rw [Int.floor_intCast] at this
    exact this

theorem seconds_toInt64_mono_nonneg (d d' : Int) (h1 : 0 ≤ d) (h : d ≤ d')
    (h2 : d' ≤ 9223372036854775808) :
    (Duration.Seconds d).toInt64 ≤ (Duration.Seconds d').toInt64 := by
  rcases eq_or_lt_of_le (Int.ediv_le_ediv (by norm_num : (0 : Int) < 1000000000) h) with hs | hs
  · apply toInt64_mono
    obtain ⟨N, D, hD, e1, e2⟩ := Seconds_eq_roundRatio d
    obtain ⟨N', D', hD', e1', e2'⟩ := Seconds_eq_roundRatio d'
    rw [Int.tdiv_eq_ediv h1 (by norm_num), Int.tmod_eq_emod h1 (by norm_num)] at e2
    rw [Int.tdiv_eq_ediv (by omega) (by norm_num),
      Int.tmod_eq_emod (by omega) (by norm_num)] at e2'
    rw [e1, e1']
    apply val_roundRatio_mono N N' D D' hD hD'
    rw [e2, e2', hs]
    have := val_frac_mono (d % 1000000000) (d' % 1000000000) (by omega) (by omega) (by omega)
    linarith
  · have b1 := (seconds_toInt64_bounds_nonneg d h1 (by omega)).2
    have b2 := (seconds_toInt64_bounds_nonneg d' (by omega) h2).1
    omega

/-- Bounds on `int64(d.Seconds())` for an `int64` duration: it is the truncated quotient
`d / Second`, or that quotient moved one step away from zero. -/
theorem seconds_toInt64_bounds (d : Int) (h1 : -9223372036854775808 ≤ d)
    (h2 : d < 9223372036854775808) :
    -9223372037 ≤ (Duration.Seconds d).toInt64 ∧ (Duration.Seconds d).toInt64 ≤ 9223372037 ∧
      Int.tdiv d Second - 1 ≤ (Duration.Seconds d).toInt64 ∧
      (Duration.Seconds d).toInt64 ≤ Int.tdiv d Second + 1 := by
  unfold Second
  rcases le_or_lt 0 d with h | h
  · obtain ⟨a, b⟩ := seconds_toInt64_bounds_nonneg d h (by omega)
    rw [Int.tdiv_eq_ediv h (by norm_num)]
    omega
  · obtain ⟨a, b⟩ := seconds_toInt64_bounds_nonneg (-d) (by omega) (by omega)
    have hn := seconds_toInt64_neg (-d)
    rw [neg_neg] at hn
    have ht : Int.tdiv d 1000000000 = -((-d) / 1000000000) := by
      rw [← Int.tdiv_eq_ediv (by omega) (by norm_num), Int.neg_tdiv, neg_neg]
    rw [hn, ht]
    omega

/-- The conversion `int64(d.Seconds())` is monotone on `int64` durations. -/
theorem seconds_toInt64_mono (d d' : Int) (h1 : -9223372036854775808 ≤ d) (h : d ≤ d')
    (h2 : d' < 9223372036854775808) :
    (Duration.Seconds d).toInt64 ≤ (Duration.Seconds d').toInt64 := by
  rcases le_or_lt 0 d with hd | hd
  · exact seconds_toInt64_mono_nonneg d d' hd h (by omega)
  · have hn := seconds_toInt64_neg (-d)
    rw [neg_neg] at hn
    rcases le_or_lt 0 d' with hd' | hd'
    · have a := (seconds_toInt64_bounds_nonneg (-d) (by omega) (by omega)).1
      have b := (seconds_toInt64_bounds_nonneg d' hd' (by omega)).1
      omega
    · have key := seconds_toInt64_mono_nonneg (-d') (-d) (by omega) (by omega) (by omega)
      have hn' := seconds_toInt64_neg (-d')
      rw [neg_neg] at hn'
      omega

/-! ### Staging and the cutoff -/

theorem AddMetric_ne {L V : Type} (b : batch L V) (l : L) (t : Int) (v : V) :
    b.AddMetric l t v ≠ b := by
  intro h
  have := congrArg (fun x => x.samples.length) h
  simp [batch.AddMetric] at this

theorem staged_iff {L V : Type} (s : Mem L V) (now : Time) (ref : SeriesRef) (l : L)
    (t : Int) (v : V) : staged s now ref l t v ↔ endTime s.app now ≤ t := by
  unfold staged Append
  by_cases h : t < endTime s.app now
  · rw [if_pos h]
    constructor
    · intro e
      exact absurd e.symm (AddMetric_ne _ l t v)
    · intro e
      omega
  · rw [if_neg h]
    constructor
    · intro _
      omega
    · intro _
      simp

theorem dropped_iff {L V : Type} (s : Mem L V) (now : Time) (ref : SeriesRef) (l : L)
    (t : Int) (v : V) : dropped s now ref l t v ↔ t < endTime s.app now := by
  unfold dropped Append
  by_cases h : t < endTime s.app now
  · rw [if_pos h]
    simp [h]
  · rw [if_neg h]
    constructor
    · intro e
      simp at e
      exact absurd e (AddMetric_ne _ l t v)
    · intro e
      exact absurd e h

/-- Away from the ends of the `int64` range the subtraction in `endTime` does not wrap. -/
theorem endTime_eq_sub (parent b : Ptr) (d : Int) (now : Time)
    (h1 : -9223372036854775808 ≤ d) (h2 : d < 9223372036854775808)
    (n1 : -9000000000000000000 ≤ now.Unix) (n2 : now.Unix ≤ 9000000000000000000) :
    endTime ⟨parent, d, b⟩ now = now.Unix - (Duration.Seconds d).toInt64 := by
  obtain ⟨a1, a2, _, _⟩ := seconds_toInt64_bounds d h1 h2
  show wrapInt64 (now.Unix - (Duration.Seconds d).toInt64) = _
  exact wrapInt64_of_int64 _ (by omega) (by omega)

/-- A longer TTL gives an earlier cutoff. -/
theorem endTime_antitone (parent b parent2 b2 : Ptr) (d d2 : Int) (now : Time)
    (h1 : -9223372036854775808 ≤ d) (h : d ≤ d2) (h2 : d2 < 9223372036854775808)
    (n1 : -9000000000000000000 ≤ now.Unix) (n2 : now.Unix ≤ 9000000000000000000) :
    endTime ⟨parent2, d2, b2⟩ now ≤ endTime ⟨parent, d, b⟩ now := by
  rw [endTime_eq_sub parent b d now h1 (by omega) n1 n2,
    endTime_eq_sub parent2 b2 d2 now (by omega) h2 n1 n2]
  have := seconds_toInt64_mono d d2 h1 h h2
  omega

/-! ## The claims -/

/-- C1 (TTL drop).  A sample whose timestamp is below the cutoff `endTime` that `Append`
computes is accepted without effect: `Append` returns the given reference and a nil
error, and the whole state, hence the bound batch and its samples, is what it was. -/
theorem Append_stale_dropped {L V : Type} (s : Mem L V) (now : Time) (ref : SeriesRef)
    (l : L) (t : Int) (v : V) (h : t < endTime s.app now) :
    Append s now ref l t v = ((ref, none), s) ∧
      ((Append s now ref l t v).2.batches s.app.l).samples = (s.batches s.app.l).samples := by
  have e : Append s now ref l t v = ((ref, none), s) := by
    unfold Append
    rw [if_pos h]
  exact ⟨e, by rw [e]⟩

theorem Append_stale_dropped_witness :
    (1699999699 : Int) < endTime exMem.app exNow ∧
      Append exMem exNow 7 "up" 1699999699 1 = ((7, none), exMem) ∧
      ((Append exMem exNow 7 "up" 1699999699 1).2.batches exMem.app.l).samples
        = (exMem.batches exMem.app.l).samples :=
  ⟨by decide, Append_stale_dropped exMem exNow 7 "up" 1699999699 1 (by decide)⟩

/-- C2 (forwarding of fresh samples).  A sample whose timestamp is at or above the cutoff
`endTime` is handed to `AddMetric` of the bound batch once, with the same labels,
timestamp and value: the new state differs from the old one only at the bound address,
where the batch is the old batch with that sample appended at the end.  No other batch
changes. -/
theorem Append_fresh_forwarded {L V : Type} (s : Mem L V) (now : Time) (ref : SeriesRef)
    (l : L) (t : Int) (v : V) (h : endTime s.app now ≤ t) :
    Append s now ref l t v
        = ((ref, none),
            { s with batches :=
                Function.update s.batches s.app.l ((s.batches s.app.l).AddMetric l t v) }) ∧
      ((Append s now ref l t v).2.batches s.app.l).samples
        = (s.batches s.app.l).samples ++ [⟨l, t, v⟩] ∧
      ∀ p, p ≠ s.app.l → (Append s now ref l t v).2.batches p = s.batches p := by
  have e : Append s now ref l t v
      = ((ref, none),
          { s with batches :=
              Function.update s.batches s.app.l ((s.batches s.app.l).AddMetric l t v) }) := by
    unfold Append
    rw [if_neg (not_lt.mpr h)]
  refine ⟨e, ?_, ?_⟩
  · rw [e]
    simp [batch.AddMetric]
  · intro p hp
    rw [e]
    simp [Function.update_noteq hp]

theorem Append_fresh_forwarded_witness :
    endTime exMem.app exNow ≤ 1699999700 ∧
      ((Append exMem exNow 7 "up" 1699999700 1).2.batches exMem.app.l).samples
        = (exMem.batches exMem.app.l).samples ++ [⟨"up", 1699999700, 1⟩] :=
  ⟨by decide, (Append_fresh_forwarded exMem exNow 7 "up" 1699999700 1 (by decide)).2.1⟩

/-- C3 (timestamp unit of the TTL check), evaluated on the code.  With a five minute
TTL and the clock at 1700000000 s, `endTime` is 1699999700, a count of seconds, while
sample timestamps are milliseconds.  The sample whose millisecond timestamp lies ten
minutes before now (1699999400000) is not below that cutoff, so `Append` stages it; the
sample stamped now is staged as well. -/
theorem Append_cutoff_in_seconds :
    endTime exMem.app exNow = 1699999700 ∧
      exNow.UnixMilli - 10 * 60 * 1000 = 1699999400000 ∧
      (Append exMem exNow 7 "up" (exNow.UnixMilli - 10 * 60 * 1000) 1).2.batches 2
        = ⟨[⟨"up", 1699999400000, 1⟩]⟩ ∧
      (Append exMem exNow 7 "up" exNow.UnixMilli 1).2.batches 2
        = ⟨[⟨"up", 1700000000000, 1⟩]⟩ := by
  refine ⟨by decide, by decide, by decide, by decide⟩

/-- C4 (Append never fails).  In every state, at every clock reading and for every
input, stale or not, `Append` returns the series reference it was given and a nil
error. -/
theorem Append_never_fails {L V : Type} (s : Mem L V) (now : Time) (ref : SeriesRef)
    (l : L) (t : Int) (v : V) :
    (Append s now ref l t v).1 = (ref, none) := by
  unfold Append
  split <;> rfl

/-- C5 (Commit delegates to the queue), evaluated on the code.  After `Append` has staged
a sample, `Commit` returns nil and the bound batch still holds that sample: nothing was
flushed and nothing was cleared. -/
theorem Commit_keeps_pending :
    ((Append exMem exNow 7 "up" 1700000000000 1).2.batches 2).samples
        = [⟨"up", 1700000000000, 1⟩] ∧
      (Commit (Append exMem exNow 7 "up" 1700000000000 1).2).1 = none ∧
      ((Commit (Append exMem exNow 7 "up" 1700000000000 1).2).2.batches 2).samples
        = [⟨"up", 1700000000000, 1⟩] := by
  refine ⟨by decide, rfl, by decide⟩

/-- C6 (Rollback is a no-op that keeps staged data).  `Rollback` returns a nil error and
the state it was called in; in particular a batch that an earlier `Append` wrote to holds
the same samples, in the same order, after `Rollback`. -/
theorem Rollback_keeps_staged {L V : Type} (s : Mem L V) (now : Time) (ref : SeriesRef)
    (l : L) (t : Int) (v : V) (p : Ptr) :
    Rollback s = (none, s) ∧
      ((Rollback (Append s now ref l t v).2).2.batches p).samples
        = ((Append s now ref l t v).2.batches p).samples :=
  ⟨rfl, rfl⟩

/-- C7 (auxiliary records are accepted and discarded).  `AppendExemplar`,
`AppendHistogram` (whichever of its two histogram pointers is set, if any) and
`UpdateMetadata` return a nil error and leave the state, hence every batch, unchanged,
whatever the timestamp and the TTL. -/
theorem auxiliary_records_discarded {L V E H FH M : Type} (s : Mem L V) (ref : SeriesRef)
    (l : L) (t : Int) (e : E) (h : Option H) (fh : Option FH) (m : M) :
    ((AppendExemplar s ref l e).1.2 = none ∧ (AppendExemplar s ref l e).2 = s) ∧
      ((AppendHistogram s ref l t h fh).1.2 = none ∧ (AppendHistogram s ref l t h fh).2 = s) ∧
      ((UpdateMetadata s ref l m).1.2 = none ∧ (UpdateMetadata s ref l m).2 = s) :=
  ⟨⟨rfl, rfl⟩, ⟨rfl, rfl⟩, ⟨rfl, rfl⟩⟩

/-- C8 as stated fails: `newAppender` accepts a zero TTL, and the appender it returns
drops a sample that is older than the clock reading instead of forwarding it. -/
theorem zero_ttl_drops_old_sample :
    exMemZero.app = newAppender 1 0 2 ∧
      (Append exMemZero exNow 7 "up" 1699999999 1).2.batches 2 = ⟨[]⟩ ∧
      (Append exMemZero exNow 7 "up" 1699999999 1).2.batches 2
        ≠ (exMemZero.batches 2).AddMetric "up" 1699999999 1 := by
  refine ⟨rfl, by decide, by decide⟩

/-- C8 (zero TTL), amended.  An appender constructed with `ttl = 0` is an ordinary
appender whose cutoff is the clock reading itself: `Append` leaves the state unchanged
for every sample with a timestamp below the clock reading, and forwards every other
sample to the bound batch. -/
theorem Append_zero_ttl {L V : Type} (s : Mem L V) (now : Time) (ref : SeriesRef)
    (l : L) (t : Int) (v : V) (parent b : Ptr) (h : s.app = newAppender parent 0 b) :
    endTime s.app now = now.Unix ∧
      (t < now.Unix → Append s now ref l t v = ((ref, none), s)) ∧
      (now.Unix ≤ t →
        Append s now ref l t v
          = ((ref, none),
              { s with batches := Function.update s.batches b ((s.batches b).AddMetric l t v) })) := by
  have hc : endTime s.app now = now.Unix := endTime_zero_ttl s.app now (by rw [h]; rfl)
  have hb : s.app.l = b := by rw [h]; rfl
  refine ⟨hc, ?_, ?_⟩
  · intro ht
    unfold Append
    rw [hc, if_pos ht]
  · intro ht
    unfold Append
    rw [hc, if_neg (not_lt.mpr ht), hb]

theorem Append_zero_ttl_witness :
    exMemZero.app = newAppender 1 0 2 ∧
      endTime exMemZero.app exNow = exNow.Unix ∧
      ((1699999999 : Int) < exNow.Unix →
        Append exMemZero exNow 7 "up" 1699999999 1 = ((7, none), exMemZero)) :=
  ⟨rfl, (Append_zero_ttl exMemZero exNow 7 "up" 1699999999 1 1 2 rfl).1,
    (Append_zero_ttl exMemZero exNow 7 "up" 1699999999 1 1 2 rfl).2.1⟩

/-- C9 (idempotent commit).  In every state, so in particular when no `Append` came
before, `Commit` returns a nil error and the state it was called in; after any number of
further calls the state is still the same and `Commit` still returns nil. -/
theorem Commit_idempotent {L V : Type} (s : Mem L V) (n : Nat) :
    Commit s = (none, s) ∧ commitTimes n s = s ∧ Commit (commitTimes n s) = (none, s) := by
  have hn : commitTimes n s = s := by
    induction n with
    | zero => rfl
    | succ k ih => exact ih
  exact ⟨rfl, hn, by rw [hn]; rfl⟩

/-- C10 (the appender is stateless beyond its construction snapshot).  `newAppender`
stores exactly its three arguments; every operation leaves the appender object (parent,
ttl, batch address) as it was; `Commit`, `Rollback`, `AppendExemplar`, `AppendHistogram`
and `UpdateMetadata` leave the whole state as it was; and the state after `Append` is the
old state with, at most, a new content at the bound batch address. -/
theorem appender_stateless {L V E H FH M : Type} (s : Mem L V) (now : Time)
    (parent b : Ptr) (ttl : Duration) (ref : SeriesRef) (l : L) (t : Int) (v : V)
    (e : E) (h : Option H) (fh : Option FH) (m : M) :
    ((newAppender parent ttl b).parent = parent ∧ (newAppender parent ttl b).ttl = ttl ∧
        (newAppender parent ttl b).l = b) ∧
      (Append s now ref l t v).2.app = s.app ∧
      (Append s now ref l t v).2.batches
        = Function.update s.batches s.app.l ((Append s now ref l t v).2.batches s.app.l) ∧
      (Commit s).2 = s ∧ (Rollback s).2 = s ∧ (AppendExemplar s ref l e).2 = s ∧
      (AppendHistogram s ref l t h fh).2 = s ∧ (UpdateMetadata s ref l m).2 = s := by
  refine ⟨⟨rfl, rfl, rfl⟩, ?_, ?_, rfl, rfl, rfl, rfl, rfl⟩
  · unfold Append
    split <;> rfl
  · unfold Append
    split
    · simp
    · simp

/-- C16 (Append's acceptance is monotone).  At one clock reading, let `s` hold an appender
with TTL `d` and `s2` one with TTL `d2 ≥ d` (both `int64` durations), and let `t ≤ t2`.
If `Append` on `s` stages a sample stamped `t`, then `Append` on `s2` stages every sample
stamped `t2`; and if `Append` on `s2` drops a sample stamped `t2`, then `Append` on `s`
drops every sample stamped `t`.  The clock reading is taken at least 292 years away from
the ends of the `int64` range, where the subtraction `now - ttl` cannot wrap. -/
theorem Append_acceptance_monotone {L V : Type} (s s2 : Mem L V) (now : Time)
    (ref ref2 : SeriesRef) (l l2 : L) (t t2 : Int) (v v2 : V)
    (hd1 : -9223372036854775808 ≤ s.app.ttl) (hd : s.app.ttl ≤ s2.app.ttl)
    (hd2 : s2.app.ttl < 9223372036854775808) (ht : t ≤ t2)
    (n1 : -9000000000000000000 ≤ now.Unix) (n2 : now.Unix ≤ 9000000000000000000) :
    (staged s now ref l t v → staged s2 now ref2 l2 t2 v2) ∧
      (dropped s2 now ref2 l2 t2 v2 → dropped s now ref l t v) := by
  have key : endTime s2.app now ≤ endTime s.app now :=
    endTime_antitone s.app.parent s.app.l s2.app.parent s2.app.l s.app.ttl s2.app.ttl now
      hd1 hd hd2 n1 n2
  constructor
  · intro h
    have := (staged_iff s now ref l t v).mp h
    exact (staged_iff s2 now ref2 l2 t2 v2).mpr (by omega)
  · intro h
    have := (dropped_iff s2 now ref2 l2 t2 v2).mp h
    exact (dropped_iff s now ref l t v).mpr (by omega)

theorem Append_acceptance_monotone_witness :
    (-9223372036854775808 ≤ exMemZero.app.ttl ∧ exMemZero.app.ttl ≤ exMem.app.ttl ∧
        exMem.app.ttl < 9223372036854775808) ∧
      staged exMemZero exNow 7 "up" 1700000000 1 ∧
      (staged exMemZero exNow 7 "up" 1700000000 1 → staged exMem exNow 8 "down" 1700000001 2) ∧
      (dropped exMem exNow 8 "down" 1700000001 2 → dropped exMemZero exNow 7 "up" 1700000000 1) :=
  ⟨by decide, (staged_iff exMemZero exNow 7 "up" 1700000000 1).mpr (by decide),
    Append_acceptance_monotone exMemZero exMem exNow 7 8 "up" "down" 1700000000 1700000001 1 2
      (by decide) (by decide) (by decide) (by decide) (by decide) (by decide)⟩

end Batch

namespace Logging

/-! ## Auxiliary facts on the logging options -/

theorem ascii_empty : ascii "" = [] := rfl

theorem contains_iff (names : List Bytes) (text : Bytes) :
    names.contains text = true ↔ text ∈ names :=
  List.elem_iff

theorem mem_levelNames (text : Bytes) :
    text ∈ levelNames ↔
      text = LevelDebug ∨ text = LevelInfo ∨ text = LevelWarn ∨ text = LevelError := by
  simp [levelNames, LevelDebug, LevelInfo, LevelWarn, LevelError]

theorem mem_formatNames (text : Bytes) :
    text ∈ formatNames ↔ text = FormatLogfmt ∨ text = FormatJSON := by
  simp [formatNames, FormatLogfmt, FormatJSON]

theorem levelNames_ne_nil (text : Bytes) (h : text ∈ levelNames) : text ≠ [] := by
  intro e
  subst e
  revert h
  decide

theorem formatNames_ne_nil (text : Bytes) (h : text ∈ formatNames) : text ≠ [] := by
  intro e
  subst e
  revert h
  decide

/-- The three cases of `Level.UnmarshalText`. -/
theorem Level_UnmarshalText_cases (ll : Level) (text : Bytes) :
    (text = [] → Level.UnmarshalText ll text = (none, ascii "info")) ∧
      (text ∈ levelNames → Level.UnmarshalText ll text = (none, text)) ∧
      (text ≠ [] → text ∉ levelNames →
        Level.UnmarshalText ll text = (some ⟨"unrecognized logInfo level %q", text⟩, ll)) := by
  refine ⟨?_, ?_, ?_⟩
  · intro h
    subst h
    rfl
  · intro h
    have h0 : text ≠ ascii "" := by rw [ascii_empty]; exact levelNames_ne_nil text h
    unfold Level.UnmarshalText
    rw [if_neg h0, if_pos ((mem_levelNames text).mp h)]
  · intro h0 h
    have h1 : text ≠ ascii "" := by rw [ascii_empty]; exact h0
    unfold Level.UnmarshalText
    rw [if_neg h1, if_neg (fun c => h ((mem_levelNames text).mpr c))]

/-- The three cases of `Format.UnmarshalText`. -/
theorem Format_UnmarshalText_cases (ll : Format) (text : Bytes) :
    (text = [] → Format.UnmarshalText ll text = (none, ascii "logfmt")) ∧
      (text ∈ formatNames → Format.UnmarshalText ll text = (none, text)) ∧
      (text ≠ [] → text ∉ formatNames →
        Format.UnmarshalText ll text = (some ⟨"unrecognized logInfo format %q", text⟩, ll)) := by
  refine ⟨?_, ?_, ?_⟩
  · intro h
    subst h
    rfl
  · intro h
    have h0 : text ≠ ascii "" := by rw [ascii_empty]; exact formatNames_ne_nil text h
    unfold Format.UnmarshalText
    rw [if_neg h0, if_pos ((mem_formatNames text).mp h)]
  · intro h0 h
    have h1 : text ≠ ascii "" := by rw [ascii_empty]; exact h0
    unfold Format.UnmarshalText
    rw [if_neg h1, if_neg (fun c => h ((mem_formatNames text).mpr c))]

/-- The three cases of the reference for levels. -/
theorem Level_UnmarshalTextRef_cases (ll : Level) (text : Bytes) :
    (text = [] → Level.UnmarshalTextRef ll text = (none, ascii "info")) ∧
      (text ∈ levelNames → Level.UnmarshalTextRef ll text = (none, text)) ∧
      (text ≠ [] → text ∉ levelNames →
        Level.UnmarshalTextRef ll text
          = (some ⟨"unrecognized logInfo level %q", text⟩, ll)) := by
  refine ⟨?_, ?_, ?_⟩
  · intro h
    subst h
    rfl
  · intro h
    have h0 := levelNames_ne_nil text h
    have hc : levelNames.contains text = true := (contains_iff _ text).mpr h
    unfold Level.UnmarshalTextRef
    rw [hc]
    cases text with
    | nil => exact absurd rfl h0
    | cons a as => rfl
  · intro h0 h
    have hc : levelNames.contains text = false := by
      rw [← Bool.not_eq_true]
      exact fun c => h ((contains_iff _ text).mp c)
    unfold Level.UnmarshalTextRef
    rw [hc]
    cases text with
    | nil => exact absurd rfl h0
    | cons a as => rfl

/-- The three cases of the reference for formats. -/
theorem Format_UnmarshalTextRef_cases (ll : Format) (text : Bytes) :
    (text = [] → Format.UnmarshalTextRef ll text = (none, ascii "logfmt")) ∧
      (text ∈ formatNames → Format.UnmarshalTextRef ll text = (none, text)) ∧
      (text ≠ [] → text ∉ formatNames →
        Format.UnmarshalTextRef ll text
          = (some ⟨"unrecognized logInfo format %q", text⟩, ll)) := by
  refine ⟨?_, ?_, ?_⟩
  · intro h
    subst h
    rfl
  · intro h
    have h0 := formatNames_ne_nil text h
    have hc : formatNames.contains text = true := (contains_iff _ text).mpr h
    unfold Format.UnmarshalTextRef
    rw [hc]
    cases text with
    | nil => exact absurd rfl h0
    | cons a as => rfl
  · intro h0 h
    have hc : formatNames.contains text = false := by
      rw [← Bool.not_eq_true]
      exact fun c => h ((contains_iff _ text).mp c)
    unfold Format.UnmarshalTextRef
    rw [hc]
    cases text with
    | nil => exact absurd rfl h0
    | cons a as => rfl

/-! ## The claims on the logging options -/

/-- C11 (Level.UnmarshalText equals its reference definition).  For every receiver value
and every byte string, `Level.UnmarshalText` gives the same error and the same level as
the reference.  It succeeds exactly when the text is empty or is one of `debug`, `info`,
`warn`, `error`, compared byte for byte (so `INFO` is refused); empty text sets the level
to `info`, one of the four names sets it to that name, and any other text returns the
`unrecognized logInfo level` error, the level staying as it was. -/
theorem Level_UnmarshalText_refines (ll : Level) (text : Bytes) :
    Level.UnmarshalText ll text = Level.UnmarshalTextRef ll text ∧
      ((Level.UnmarshalText ll text).1 = none ↔ text = [] ∨ text ∈ levelNames) ∧
      (text = [] → Level.UnmarshalText ll text = (none, ascii "info")) ∧
      (text ∈ levelNames → Level.UnmarshalText ll text = (none, text)) ∧
      (text ≠ [] → text ∉ levelNames →
        Level.UnmarshalText ll text = (some ⟨"unrecognized logInfo level %q", text⟩, ll)) ∧
      (Level.UnmarshalText ll (ascii "INFO")).1 ≠ none := by
  obtain ⟨c1, c2, c3⟩ := Level_UnmarshalText_cases ll text
  obtain ⟨r1, r2, r3⟩ := Level_UnmarshalTextRef_cases ll text
  refine ⟨?_, ?_, c1, c2, c3, ?_⟩
  · by_cases h0 : text = []
    · rw [c1 h0, r1 h0]
    · by_cases hm : text ∈ levelNames
      · rw [c2 hm, r2 hm]
      · rw [c3 h0 hm, r3 h0 hm]
  · constructor
    · intro h
      by_contra c
      rw [not_or] at c
      rw [c3 c.1 c.2] at h
      exact absurd h (by simp)
    · rintro (h | h)
      · rw [c1 h]
      · rw [c2 h]
  · rw [(Level_UnmarshalText_cases ll (ascii "INFO")).2.2 (by decide) (by decide)]
    simp

/-- C12 (Format.UnmarshalText equals its reference definition).  For every receiver value
and every byte string, `Format.UnmarshalText` gives the same error and the same format
as the reference.  It succeeds exactly when the text is empty or is `logfmt` or `json`;
empty text sets the format to `logfmt`, one of the two names sets it to that name, and
any other text returns the `unrecognized logInfo format` error, the format staying as it
was. -/
theorem Format_UnmarshalText_refines (ll : Format) (text : Bytes) :
    Format.UnmarshalText ll text = Format.UnmarshalTextRef ll text ∧
      ((Format.UnmarshalText ll text).1 = none ↔ text = [] ∨ text ∈ formatNames) ∧
      (text = [] → Format.UnmarshalText ll text = (none, ascii "logfmt")) ∧
      (text ∈ formatNames → Format.UnmarshalText ll text = (none, text)) ∧
      (text ≠ [] → text ∉ formatNames →
        Format.UnmarshalText ll text
          = (some ⟨"unrecognized logInfo format %q", text⟩, ll)) := by
  obtain ⟨c1, c2, c3⟩ := Format_UnmarshalText_cases ll text
  obtain ⟨r1, r2, r3⟩ := Format_UnmarshalTextRef_cases ll text
  refine ⟨?_, ?_, c1, c2, c3⟩
  · by_cases h0 : text = []
    · rw [c1 h0, r1 h0]
    · by_cases hm : text ∈ formatNames
      · rw [c2 hm, r2 hm]
      · rw [c3 h0 hm, r3 h0 hm]
  · constructor
    · intro h
      by_contra c
      rw [not_or] at c
      rw [c3 c.1 c.2] at h
      exact absurd h (by simp)
    · rintro (h | h)
      · rw [c1 h]
      · rw [c2 h]

/-- C13 (text round trip).  `MarshalText` of any level `x` and any format `y` returns
exactly its bytes and a nil error.  For a supported level `ll` and a supported format
`ff`, `UnmarshalText` applied to the marshalled bytes succeeds and sets the receiver to
`ll`, respectively `ff`, whatever the receiver (`rl`, `rf`) held before. -/
theorem marshal_unmarshal_round_trip (x ll rl : Level) (y ff rf : Format)
    (hl : ll = LevelDebug ∨ ll = LevelInfo ∨ ll = LevelWarn ∨ ll = LevelError)
    (hf : ff = FormatLogfmt ∨ ff = FormatJSON) :
    Level.MarshalText x = (x, none) ∧ Format.MarshalText y = (y, none) ∧
      Level.UnmarshalText rl (Level.MarshalText ll).1 = (none, ll) ∧
      Format.UnmarshalText rf (Format.MarshalText ff).1 = (none, ff) := by
  refine ⟨rfl, rfl, ?_, ?_⟩
  · exact (Level_UnmarshalText_cases rl ll).2.1 ((mem_levelNames ll).mpr hl)
  · exact (Format_UnmarshalText_cases rf ff).2.1 ((mem_formatNames ff).mpr hf)

theorem marshal_unmarshal_round_trip_witness :
    Level.UnmarshalText (ascii "error") (Level.MarshalText LevelWarn).1 = (none, LevelWarn) ∧
      Format.UnmarshalText (ascii "logfmt") (Format.MarshalText FormatJSON).1
        = (none, FormatJSON) :=
  (marshal_unmarshal_round_trip LevelDebug LevelWarn (ascii "error") FormatLogfmt FormatJSON
    (ascii "logfmt") (by decide) (by decide)).2.2

/-- C14 (SetToDefault resets every field).  For every options value, `SetToDefault`
leaves `DefaultOptions`: the level is `info`, the format is `logfmt`, and `WriteTo` is
empty, whatever receivers were configured before.  Calling it again changes nothing. -/
theorem SetToDefault_resets {R : Type} (o : Options R) :
    o.SetToDefault = DefaultOptions ∧
      o.SetToDefault.Level = ascii "info" ∧
      o.SetToDefault.Format = ascii "logfmt" ∧
      o.SetToDefault.WriteTo = [] ∧
      o.SetToDefault.SetToDefault = o.SetToDefault :=
  ⟨rfl, rfl, rfl, rfl, rfl⟩

/-- C15 (slogLevel.Level).  The four level names map to `-4`, `0`, `4` and `8`.  Any
other level string `l` maps to `math.MinInt`, which is at most every `int` value `v`, so
at most the level of every log record. -/
theorem slogLevel_Level_values (intSize : Nat) (l : Level) (v : Int)
    (hl : ¬ (l = LevelDebug ∨ l = LevelInfo ∨ l = LevelWarn ∨ l = LevelError))
    (hv : MinInt intSize ≤ v ∧ v ≤ MaxInt intSize) :
    (slogLevel.Level intSize (ascii "debug") = -4 ∧
        slogLevel.Level intSize (ascii "info") = 0 ∧
        slogLevel.Level intSize (ascii "warn") = 4 ∧
        slogLevel.Level intSize (ascii "error") = 8) ∧
      slogLevel.Level intSize l = MinInt intSize ∧
      slogLevel.Level intSize l ≤ v := by
  rw [not_or, not_or, not_or] at hl
  obtain ⟨h1, h2, h3, h4⟩ := hl
  have e : slogLevel.Level intSize l = MinInt intSize := by
    unfold slogLevel.Level
    rw [if_neg h1, if_neg h2, if_neg h3, if_neg h4]
  refine ⟨⟨rfl, rfl, rfl, rfl⟩, e, ?_⟩
  rw [e]
  exact hv.1

theorem slogLevel_Level_values_witness :
    slogLevel.Level 64 (ascii "trace") = MinInt 64 ∧
      MinInt 64 = -9223372036854775808 ∧
      slogLevel.Level 64 (ascii "trace") ≤ -4 :=
  ⟨(slogLevel_Level_values 64 (ascii "trace") (-4) (by decide) (by decide)).2.1, by decide,
    (slogLevel_Level_values 64 (ascii "trace") (-4) (by decide) (by decide)).2.2⟩

end Logging
